import Mathlib

/-!
Verification of the Repeat Collapser core (`remove_repeated_phrases` in
`src/main.py`) of the Video-Service repository.

The Python function scans a token list left to right.  At each cursor
position `i` it tries candidate window lengths `n` from `max_words`
down through `min_words` (Python `range(max_words, min_words - 1, -1)`);
on the first `n` where two consecutive `n`-token slices starting at `i`
are equal it counts how many consecutive slices repeat, emits the phrase
once, and advances the cursor past all detected cycles; otherwise it
emits the single token at `i` and advances by one.

Both Python loops are embedded with explicit fuel: the inner extension
loop (`while i + repeats * n <= len ...`) genuinely diverges when the
candidate length `n` is `0` (reachable when `min_words = 0`, since the
Python `range` then includes `0`), so the embedding returns `none`
exactly when the fuel runs out.  The top-level function supplies fuel
proved sufficient for every run with `min_words >= 1`.
-/

/-- Python slice `ws[a:b]` for natural indices: clamps at the list
length and yields `[]` when `b <= a`, exactly as Python does for
nonnegative bounds. -/
def pySlice (ws : List String) (a b : Nat) : List String :=
  (ws.drop a).take (b - a)

/-- The descending candidate list `range(hi, lo - 1, -1)` of Python:
`[hi, hi-1, ..., lo]`, empty when `hi < lo`. -/
def rangeDesc (hi lo : Nat) : List Nat :=
  (List.range' lo (hi + 1 - lo)).reverse

/-- The inner `for n in range(max_words, min_words - 1, -1)` loop of
`remove_repeated_phrases`: return the first candidate length `n` for
which enough tokens remain (`i + n * 2 <= len(words)`) and
`words[i:i+n] == words[i+n:i+2*n]`, or `none` when no candidate
matches. -/
def findRepeatN (words : List String) (i : Nat) : List Nat → Option Nat
  | [] => none
  | n :: rest =>
    if i + n * 2 ≤ words.length ∧
        pySlice words i (i + n) = pySlice words (i + n) (i + 2 * n) then
      some n
    else
      findRepeatN words i rest

/-- The inner extension loop of `remove_repeated_phrases`:
`while i + repeats * n <= len(words) and
   words[i + (repeats - 1) * n : i + repeats * n] == phrase1:
     repeats += 1`,
with explicit fuel; returns the final value of `repeats`, or `none`
when the fuel is exhausted (the Python loop diverges for `n = 0`). -/
def countRepeats : Nat → List String → List String → Nat → Nat → Nat → Option Nat
  | 0, _, _, _, _, _ => none
  | fuel + 1, words, phrase1, i, n, repeats =>
    if i + repeats * n ≤ words.length ∧
        pySlice words (i + (repeats - 1) * n) (i + repeats * n) = phrase1 then
      countRepeats fuel words phrase1 i n (repeats + 1)
    else
      some repeats

/-- The outer `while i < len(words)` loop of `remove_repeated_phrases`,
with explicit fuel for the outer loop and a separate fuel budget handed
to each run of the inner extension loop.  `acc` is the `result_words`
accumulator. -/
def collapseLoop : Nat → Nat → List String → Nat → Nat → Nat → List String → Option (List String)
  | 0, _, _, _, _, _, _ => none
  | fuel + 1, innerFuel, words, minW, maxW, i, acc =>
    if i < words.length then
      match findRepeatN words i (rangeDesc maxW minW) with
      | some n =>
        match countRepeats innerFuel words (pySlice words i (i + n)) i n 2 with
        | none => none
        | some repeats =>
          collapseLoop fuel innerFuel words minW maxW (i + (repeats - 1) * n)
            (acc ++ pySlice words i (i + n))
      | none =>
        collapseLoop fuel innerFuel words minW maxW (i + 1) (acc ++ [words.getD i ""])
    else
      some acc

/-- `remove_repeated_phrases` of `src/main.py`, at the token-list level
(the `text.split()` / `' '.join(...)` wrappers are the string boundary
of the contract).  Fuel `words.length + 1` bounds the outer loop (the
cursor strictly advances while it is below `words.length`) and
`words.length + 2` bounds each inner extension run; both are proved
sufficient whenever `min_words >= 1`.  A `none` result means the Python
original does not terminate. -/
def remove_repeated_phrases (words : List String) (minW maxW : Nat) : Option (List String) :=
  collapseLoop (words.length + 1) (words.length + 2) words minW maxW 0 []

/-! ### Basic lemmas about the candidate range and slices -/

theorem mem_rangeDesc {hi lo n : Nat} : n ∈ rangeDesc hi lo ↔ lo ≤ n ∧ n ≤ hi := by
  simp only [rangeDesc, List.mem_reverse, List.mem_range'_1]
  omega

theorem pySlice_eq_take_drop (ws : List String) (i n : Nat) :
    pySlice ws i (i + n) = (ws.drop i).take n := by
  simp [pySlice]

/-! ### Lemmas about `findRepeatN` -/

theorem findRepeatN_some_mem {words : List String} {i n : Nat} {l : List Nat}
    (h : findRepeatN words i l = some n) : n ∈ l := by
  induction l with
  | nil => simp [findRepeatN] at h
  | cons m rest ih =>
    rw [findRepeatN] at h
    split at h
    · simp only [Option.some.injEq] at h
      simp [h]
    · exact List.mem_cons_of_mem _ (ih h)

theorem findRepeatN_eq_none {words : List String} {i : Nat} {l : List Nat}
    (h : ∀ n ∈ l, ¬ (i + n * 2 ≤ words.length ∧
      pySlice words i (i + n) = pySlice words (i + n) (i + 2 * n))) :
    findRepeatN words i l = none := by
  induction l with
  | nil => rfl
  | cons m rest ih =>
    rw [findRepeatN]
    rw [if_neg (h m (List.mem_cons_self m rest))]
    exact ih fun n hn => h n (List.mem_cons_of_mem _ hn)

/-! ### Lemmas about `countRepeats` -/

theorem countRepeats_le {fuel : Nat} {words phrase1 : List String} {i n r r2 : Nat}
    (h : countRepeats fuel words phrase1 i n r = some r2) : r ≤ r2 := by
  induction fuel generalizing r with
  | zero => simp [countRepeats] at h
  | succ f ih =>
    rw [countRepeats] at h
    split at h
    · exact Nat.le_of_succ_le (ih h)
    · simp only [Option.some.injEq] at h
      omega

theorem countRepeats_terminates {words phrase1 : List String} {n : Nat} (hn : 1 ≤ n) :
    ∀ fuel i r, words.length + 2 - r < fuel →
      ∃ r2, countRepeats fuel words phrase1 i n r = some r2 := by
  intro fuel
  induction fuel with
  | zero => intro i r h; omega
  | succ f ih =>
    intro i r h
    rw [countRepeats]
    split
    · rename_i hc
      have hr : r ≤ words.length := by
        have := hc.1
        have : r * 1 ≤ r * n := Nat.mul_le_mul_left r hn
        omega
      exact ih i (r + 1) (by omega)
    · exact ⟨r, rfl⟩

/-- The extension loop computes exactly `k + 1` when `k` is the maximal
number of consecutive matching blocks: blocks `0..k-1` all equal the
phrase, all fit, and block `k` either does not fit or does not match. -/
theorem countRepeats_maximal {words phrase1 : List String} {i n k : Nat}
    (hk2 : 2 ≤ k) (hfit : i + k * n ≤ words.length)
    (hmatch : ∀ j < k, pySlice words (i + j * n) (i + (j + 1) * n) = phrase1)
    (hfail : ¬ (i + (k + 1) * n ≤ words.length ∧
      pySlice words (i + k * n) (i + (k + 1) * n) = phrase1)) :
    ∀ fuel r, 2 ≤ r → r ≤ k + 1 → k + 2 - r ≤ fuel →
      countRepeats fuel words phrase1 i n r = some (k + 1) := by
  intro fuel
  induction fuel with
  | zero => intro r hr1 hr2 hr3; omega
  | succ f ih =>
    intro r hr1 hr2 hr3
    rw [countRepeats]
    by_cases hrk : r ≤ k
    · rw [if_pos]
      · exact ih (r + 1) (by omega) (by omega) (by omega)
      · constructor
        · have : r * n ≤ k * n := Nat.mul_le_mul_right n hrk
          omega
        · have hj := hmatch (r - 1) (by omega)
          have he : r - 1 + 1 = r := by omega
          rw [he] at hj
          exact hj
    · have hrk1 : r = k + 1 := by omega
      subst hrk1
      rw [if_neg]
      intro hcon
      exact hfail ⟨by have := hcon.1; omega, by
        have := hcon.2
        have he : k + 1 - 1 = k := by omega
        rw [he] at this
        exact this⟩

/-! ### Lemmas about `collapseLoop` -/

/-- With `min_words >= 1` the outer scan terminates: the supplied fuels
suffice because the cursor strictly advances each iteration. -/
theorem collapseLoop_terminates {words : List String} {minW maxW : Nat} (hmin : 1 ≤ minW) :
    ∀ fuel i acc, words.length - i < fuel →
      ∃ r, collapseLoop fuel (words.length + 2) words minW maxW i acc = some r := by
  intro fuel
  induction fuel with
  | zero => intro i acc h; omega
  | succ f ih =>
    intro i acc h
    by_cases hi : i < words.length
    · rcases hfr : findRepeatN words i (rangeDesc maxW minW) with _ | n
      · obtain ⟨r, hr⟩ := ih (i + 1) (acc ++ [words.getD i ""]) (by omega)
        refine ⟨r, ?_⟩
        rw [collapseLoop, if_pos hi]
        simp only [hfr]
        exact hr
      · have hn : 1 ≤ n := by
          have := (mem_rangeDesc.mp (findRepeatN_some_mem hfr)).1
          omega
        obtain ⟨r2, hr2⟩ :=
          @countRepeats_terminates words (pySlice words i (i + n)) n hn
            (words.length + 2) i 2 (by omega)
        have hr22 : 2 ≤ r2 := countRepeats_le hr2
        have hadv : 1 ≤ (r2 - 1) * n :=
          Nat.one_le_iff_ne_zero.mpr (Nat.mul_ne_zero (by omega) (by omega))
        obtain ⟨r, hr⟩ := ih (i + (r2 - 1) * n) (acc ++ pySlice words i (i + n)) (by omega)
        refine ⟨r, ?_⟩
        rw [collapseLoop, if_pos hi]
        simp only [hfr, hr2]
        exact hr
    · exact ⟨acc, by rw [collapseLoop, if_neg hi]⟩

/-- When no candidate window matches at any position, the scan copies
the remaining suffix through unchanged. -/
theorem collapseLoop_id {words : List String} {minW maxW innerFuel : Nat}
    (hnone : ∀ i, findRepeatN words i (rangeDesc maxW minW) = none) :
    ∀ fuel i acc, words.length - i < fuel →
      collapseLoop fuel innerFuel words minW maxW i acc = some (acc ++ words.drop i) := by
  intro fuel
  induction fuel with
  | zero => intro i acc h; omega
  | succ f ih =>
    intro i acc h
    rw [collapseLoop]
    split
    · rename_i hi
      rw [hnone i]
      rw [ih (i + 1) (acc ++ [words.getD i ""]) (by omega)]
      have hd : words.drop i = words.getD i "" :: words.drop (i + 1) := by
        rw [List.getD_eq_getElem words "" hi]
        exact List.drop_eq_getElem_cons hi
      rw [hd, List.append_assoc, List.singleton_append]
    · rename_i hi
      rw [List.drop_eq_nil_of_le (by omega), List.append_nil]

/-- Whatever the scan produces extends the accumulator by a subsequence
of the unscanned suffix of the input. -/
theorem collapseLoop_sublist {words : List String} {minW maxW innerFuel : Nat} :
    ∀ fuel i acc r, collapseLoop fuel innerFuel words minW maxW i acc = some r →
      ∃ t, r = acc ++ t ∧ t.Sublist (words.drop i) := by
  intro fuel
  induction fuel with
  | zero => intro i acc r h; simp [collapseLoop] at h
  | succ f ih =>
    intro i acc r h
    rw [collapseLoop] at h
    split at h
    · rename_i hi
      split at h
      · rename_i n hfr
        split at h
        · exact absurd h (by simp)
        · rename_i reps hcr
          have hr2 : 2 ≤ reps := countRepeats_le hcr
          obtain ⟨t, ht, hs⟩ := ih (i + (reps - 1) * n) (acc ++ pySlice words i (i + n)) r h
          refine ⟨pySlice words i (i + n) ++ t, by simp [ht], ?_⟩
          have hnm : n ≤ (reps - 1) * n := by
            calc n = 1 * n := (Nat.one_mul n).symm
              _ ≤ (reps - 1) * n := Nat.mul_le_mul_right n (by omega)
          have h1 : pySlice words i (i + n) =
              ((words.drop i).take ((reps - 1) * n)).take n := by
            rw [pySlice_eq_take_drop, List.take_take, Nat.min_eq_left hnm]
          have h2 : (words.drop i).take ((reps - 1) * n) ++
              words.drop (i + (reps - 1) * n) = words.drop i := by
            have h3 := List.take_append_drop ((reps - 1) * n) (words.drop i)
            rwa [List.drop_drop] at h3
          have h4 : (((words.drop i).take ((reps - 1) * n)).take n ++ t).Sublist
              ((words.drop i).take ((reps - 1) * n) ++
                words.drop (i + (reps - 1) * n)) :=
            List.Sublist.append (List.take_sublist _ _) hs
          rw [h2] at h4
          rw [h1]
          exact h4
      · rename_i hfr
        obtain ⟨t, ht, hs⟩ := ih (i + 1) (acc ++ [words.getD i ""]) r h
        refine ⟨words.getD i "" :: t, by simp [ht], ?_⟩
        have hd : words.drop i = words.getD i "" :: words.drop (i + 1) := by
          rw [List.getD_eq_getElem words "" hi]
          exact List.drop_eq_getElem_cons hi
        rw [hd]
        exact List.Sublist.cons₂ _ hs
    · simp only [Option.some.injEq] at h
      exact ⟨[], by simp [h.symm], List.nil_sublist _⟩

/-- With candidate length `0` (reachable when `min_words = 0`, since
Python's `range(max_words, -1, -1)` ends at `0`) the extension loop
never stops: the phrase is the empty slice, `i + repeats * 0 = i` stays
within bounds, and the compared block is always the empty slice. -/
theorem countRepeats_zero_window {words : List String} {i : Nat} (hi : i ≤ words.length) :
    ∀ fuel r, countRepeats fuel words [] i 0 r = none := by
  intro fuel
  induction fuel with
  | zero => intro r; rfl
  | succ f ih =>
    intro r
    rw [countRepeats, if_pos]
    · exact ih (r + 1)
    · exact ⟨by omega, by simp [pySlice]⟩

/-- On input `["a"]` with `min_words = 0`, `max_words = 10`, no amount
of fuel for either loop produces a result: the call diverges. -/
theorem collapseLoop_min_zero_none :
    ∀ fuel innerFuel : Nat, collapseLoop fuel innerFuel ["a"] 0 10 0 [] = none := by
  intro fuel innerFuel
  match fuel with
  | 0 => rfl
  | f + 1 =>
    rw [collapseLoop, if_pos (by decide)]
    have hfr : findRepeatN ["a"] 0 (rangeDesc 10 0) = some 0 := by decide
    have hcr : countRepeats innerFuel ["a"] (pySlice ["a"] 0 (0 + 0)) 0 0 2 = none :=
      countRepeats_zero_window (by decide) innerFuel 2
    simp only [hfr, hcr]

/-! ### The claims -/

/-- C1: at a position `i` where the scan selects window length `n`
(the longest candidate in `[minWords, maxWords]` whose two leading
blocks match), if `k >= 2` is the maximal number of consecutive
`n`-token blocks starting at `i` equal to `tokens[i:i+n]`, then the
step emits exactly one copy of that phrase and resumes scanning at
`i + k * n`: all `k` occurrences consumed, one emitted. -/
theorem collapse_step_consumes_all_cycles
    {words : List String} {minW maxW i n k fuel : Nat} {acc : List String}
    (hmin : 1 ≤ minW)
    (hfind : findRepeatN words i (rangeDesc maxW minW) = some n)
    (hk2 : 2 ≤ k)
    (hfit : i + k * n ≤ words.length)
    (hmatch : ∀ j < k,
      pySlice words (i + j * n) (i + (j + 1) * n) = pySlice words i (i + n))
    (hmax : ¬ (i + (k + 1) * n ≤ words.length ∧
      pySlice words (i + k * n) (i + (k + 1) * n) = pySlice words i (i + n))) :
    collapseLoop (fuel + 1) (words.length + 2) words minW maxW i acc =
      collapseLoop fuel (words.length + 2) words minW maxW (i + k * n)
        (acc ++ pySlice words i (i + n)) := by
  have hn : 1 ≤ n := by
    have := (mem_rangeDesc.mp (findRepeatN_some_mem hfind)).1
    omega
  have hkn : 2 ≤ k * n := by
    have := Nat.mul_le_mul hk2 hn
    omega
  have hi : i < words.length := by omega
  have hkl : k ≤ words.length := by
    have : k * 1 ≤ k * n := Nat.mul_le_mul_left k hn
    omega
  have hcr : countRepeats (words.length + 2) words (pySlice words i (i + n)) i n 2 =
      some (k + 1) :=
    countRepeats_maximal hk2 hfit hmatch hmax (words.length + 2) 2
      (Nat.le_refl 2) (by omega) (by omega)
  rw [collapseLoop, if_pos hi]
  simp only [hfind, hcr, Nat.add_sub_cancel]

/-- C1 witness: on `["a","a","a"]` with `minWords = maxWords = 1` the
selected window has length `1` and `k = 3` maximal cycles, so one
step emits one `"a"` and moves the cursor to `3`. -/
theorem collapse_step_consumes_all_cycles_witness :
    collapseLoop 6 5 ["a", "a", "a"] 1 1 0 [] =
      collapseLoop 5 5 ["a", "a", "a"] 1 1 (0 + 3 * 1)
        ([] ++ pySlice ["a", "a", "a"] 0 (0 + 1)) :=
  @collapse_step_consumes_all_cycles ["a", "a", "a"] 1 1 0 1 3 5 []
    (by decide) (by decide) (by decide) (by decide) (by decide) (by decide)

/-- C2: whenever the scan returns a result, that result is a
subsequence of the input in the strict order-preserving sense:
tokens are drawn from strictly increasing input positions. -/
theorem remove_repeated_phrases_sublist {words : List String} {minW maxW : Nat}
    {r : List String} (hmin : 1 ≤ minW) (hmm : minW ≤ maxW)
    (h : remove_repeated_phrases words minW maxW = some r) :
    r.Sublist words := by
  rw [remove_repeated_phrases] at h
  obtain ⟨t, ht, hs⟩ := collapseLoop_sublist (words.length + 1) 0 [] r h
  rw [ht]
  simpa using hs

/-- C2 witness: `["a","a"]` with bounds `1, 2` collapses to `["a"]`,
a subsequence of the input. -/
theorem remove_repeated_phrases_sublist_witness :
    List.Sublist ["a"] ["a", "a"] :=
  remove_repeated_phrases_sublist (by decide) (by decide)
    (by decide : remove_repeated_phrases ["a", "a"] 1 2 = some ["a"])

/-- C3: on `["a","b","a","b","a","b"]` with bounds `1, 3` the length-3
candidate fails, the scan selects length 2, the extension loop ends
with `repeats = 4` (three matching cycles), and the result is the
single phrase `["a","b"]`. -/
theorem collapse_longest_first_tie_break :
    remove_repeated_phrases ["a", "b", "a", "b", "a", "b"] 1 3 = some ["a", "b"] ∧
    findRepeatN ["a", "b", "a", "b", "a", "b"] 0 (rangeDesc 3 1) = some 2 ∧
    countRepeats 8 ["a", "b", "a", "b", "a", "b"] ["a", "b"] 0 2 2 = some 4 :=
  ⟨by decide, by decide, by decide⟩

/-- C4: the code performs no bounds validation at all.  With
`min_words = 2 > max_words = 1` the candidate range is empty and the
input is returned unchanged — no invalid-argument error is raised;
with `min_words = 0` the call diverges instead of raising. -/
theorem remove_repeated_phrases_no_bounds_check :
    remove_repeated_phrases ["a"] 2 1 = some ["a"] ∧
    remove_repeated_phrases ["a"] 0 10 = none :=
  ⟨by decide, collapseLoop_min_zero_none 2 3⟩

/-- C5: if no position admits two adjacent equal windows of any length
in `[minWords, maxWords]`, the scan is the identity. -/
theorem remove_repeated_phrases_id_of_no_repeat {words : List String} {minW maxW : Nat}
    (hmin : 1 ≤ minW)
    (hno : ∀ i n, minW ≤ n → n ≤ maxW → i + 2 * n ≤ words.length →
      pySlice words i (i + n) ≠ pySlice words (i + n) (i + 2 * n)) :
    remove_repeated_phrases words minW maxW = some words := by
  have hnone : ∀ i, findRepeatN words i (rangeDesc maxW minW) = none := by
    intro i
    apply findRepeatN_eq_none
    intro n hn hcond
    obtain ⟨hm, hM⟩ := mem_rangeDesc.mp hn
    have h1 := hcond.1
    exact hno i n hm hM (by omega) hcond.2
  rw [remove_repeated_phrases]
  have := @collapseLoop_id words minW maxW (words.length + 2) hnone
    (words.length + 1) 0 [] (by omega)
  simpa using this

/-- C5 witness: `["a","b"]` has no repeat with bounds `1, 2`, so it is
returned unchanged. -/
theorem remove_repeated_phrases_id_of_no_repeat_witness :
    remove_repeated_phrases ["a", "b"] 1 2 = some ["a", "b"] := by
  apply remove_repeated_phrases_id_of_no_repeat (by decide)
  intro i n h1 h2 h3
  have hl : (["a", "b"] : List String).length = 2 := rfl
  have hni : n = 1 ∧ i = 0 := by omega
  obtain ⟨rfl, rfl⟩ := hni
  decide

/-- C6: with well-formed bounds the scan always terminates with a
result: the supplied fuel is sufficient because every outer iteration
strictly advances the cursor, which is bounded by the input length. -/
theorem remove_repeated_phrases_total {words : List String} {minW maxW : Nat}
    (hmin : 1 ≤ minW) (hmm : minW ≤ maxW) :
    ∃ r, remove_repeated_phrases words minW maxW = some r := by
  rw [remove_repeated_phrases]
  exact collapseLoop_terminates hmin (words.length + 1) 0 [] (by omega)

/-- C6 witness: the scan terminates on `["a"]` with bounds `1, 1`. -/
theorem remove_repeated_phrases_total_witness :
    ∃ r, remove_repeated_phrases ["a"] 1 1 = some r :=
  remove_repeated_phrases_total (by decide) (by decide)

/-- C7: with well-formed bounds, the empty input yields the empty
output, and an input shorter than `minWords` is returned unchanged
(no window of two consecutive phrases fits). -/
theorem remove_repeated_phrases_empty_short {words : List String} {minW maxW : Nat}
    (hmin : 1 ≤ minW) (hmm : minW ≤ maxW) :
    remove_repeated_phrases [] minW maxW = some [] ∧
    (words.length < minW → remove_repeated_phrases words minW maxW = some words) := by
  constructor
  · rfl
  · intro hlen
    have hnone : ∀ i, findRepeatN words i (rangeDesc maxW minW) = none := by
      intro i
      apply findRepeatN_eq_none
      intro n hn hcond
      obtain ⟨hm, hM⟩ := mem_rangeDesc.mp hn
      have h1 := hcond.1
      omega
    rw [remove_repeated_phrases]
    have := @collapseLoop_id words minW maxW (words.length + 2) hnone
      (words.length + 1) 0 [] (by omega)
    simpa using this

/-- C7 witness: `["a","b"]` with `minWords = 3 > 2` tokens is returned
unchanged. -/
theorem remove_repeated_phrases_empty_short_witness :
    remove_repeated_phrases ["a", "b"] 3 5 = some ["a", "b"] :=
  (remove_repeated_phrases_empty_short (by decide) (by decide)).2 (by decide)

/-- C8: four consecutive occurrences of the 2-token phrase
`["x","y"]` collapse to a single occurrence. -/
theorem collapse_multi_cycle :
    remove_repeated_phrases ["x", "y", "x", "y", "x", "y", "x", "y"] 1 2 =
      some ["x", "y"] := by decide

/-- C9: `["a","a"]` with bounds `2, 5` is unchanged: the 1-token
repeat is below `minWords`, and no window of length at least 2 fits
twice in 2 tokens. -/
theorem collapse_no_collapse_below_min :
    remove_repeated_phrases ["a", "a"] 2 5 = some ["a", "a"] := by decide

/-- C10: with `tokens = ["a"]`, `min_words = 0`, `max_words = 10`, the
candidate length `n = 0` is selected (two equal empty phrases) and the
extension loop runs forever: no fuel bound for either loop yields a
result, so the Python call loops infinitely instead of raising. -/
theorem remove_repeated_phrases_min_zero_diverges :
    (∀ fuel innerFuel : Nat, collapseLoop fuel innerFuel ["a"] 0 10 0 [] = none) ∧
    remove_repeated_phrases ["a"] 0 10 = none :=
  ⟨collapseLoop_min_zero_none, collapseLoop_min_zero_none 2 3⟩
